import Mathlib

/-!
Verification of the LZMA/LZMA2 codec repository against its specification.

Each Go function relevant to the frozen claims is shallowly embedded as an
executable Lean definition.  Machine integers are modelled as Nat/Int with
explicit remarks where widths matter.  Fallible code returns Option/Except
values; imperative update sequences are translated assignment by assignment.
-/

set_option autoImplicit false

namespace XzSpec

/-! ## Common error model

Go errors are modelled by a small inductive.  Constructors correspond to the
sentinel errors used by the sources; `other` stands for any further distinct
error value and `oracleEnd` is a modelling artifact marking exhaustion of an
abstract input oracle. -/

inductive Err where
  | eof
  | unexpectedEOF
  | errEncoding
  | eosMarker
  | noData
  | closed
  | oracleEnd
  | other (n : Nat)
deriving DecidableEq, Repr

/-! ## LZMA properties byte (src/lzma_1/reader.go, lines 13-48)

`Properties.fromByte` decodes the 1-byte header field; the byte parameter is
a Go `byte`, so the intended domain is `b < 256`. -/

structure Properties where
  LC : Nat
  LP : Nat
  PB : Nat
deriving DecidableEq, Repr

/-- Embedding of `Properties.byte` (reader.go line 21): the byte that encodes
the properties. -/
def Properties.toByte (p : Properties) : Nat :=
  (p.PB * 5 + p.LP) * 9 + p.LC

/-- Embedding of `Properties.fromByte` (reader.go lines 25-35): quotient and
remainder extraction of LC, LP, PB; fails iff the extracted PB exceeds 4. -/
def Properties.fromByte (b : Nat) : Option Properties :=
  let lc := b % 9
  let b1 := b / 9
  let lp := b1 % 5
  let b2 := b1 / 5
  if b2 > 4 then none else some ⟨lc, lp, b2⟩

/-! ## LZMA1 writer size enforcement (src/lzbase/writer.go, lines 33-54)

`Writer.Write` first computes `end := Dict.end + len(p)` and, when a size is
declared in the header and `end` exceeds it, reslices the input with
`p = p[:params.Size-end]`.  The embedding returns the length of the slice
the code would keep, or `none` where the Go code panics (the `end < 0`
overflow panic, and a reslice bound that is negative or beyond the capacity
of `p`; the capacity is unknown to the model and taken as `len(p)`). -/

def writeTruncate (dictEnd size : Int) (sizeInHeader : Bool) (plen : Nat) : Option Nat :=
  let e : Int := dictEnd + plen
  if e < 0 then
    none
  else if sizeInHeader ∧ e > size then
    let m : Int := size - e
    if m < 0 ∨ (plen : Int) < m then none else some m.toNat
  else
    some plen

/-! ## Repetition registers and the encoder match path
(src/lzbase/writer.go, lines 235-308)

The four repetition registers are a 4-tuple of stored distances (the values
kept by the code are the on-the-wire `dist` offsets).  `writeMatch` first
validates distance and length, then searches the registers for the distance
and updates the registers along the branch taken, emitting the corresponding
range-coder symbols.  The symbols are recorded abstractly as `EncStep`
values so that the embedding shows that nothing is emitted on a validation
failure. -/

structure Reps where
  r0 : Nat
  r1 : Nat
  r2 : Nat
  r3 : Nat
deriving DecidableEq, Repr

/-- Register lookup, `oc.rep[g]` for `g` in 0..3. -/
def repAt (r : Reps) : Nat → Nat
  | 0 => r.r0
  | 1 => r.r1
  | 2 => r.r2
  | _ => r.r3

/-- Embedding of the loop `for g = 0; g < 4; g++ { if oc.rep[g] == dist
{ break } }` (writer.go lines 250-255): the least matching index, 4 when
no register holds `dist`. -/
def gIndex (r : Reps) (dist : Nat) : Nat :=
  if r.r0 = dist then 0
  else if r.r1 = dist then 1
  else if r.r2 = dist then 2
  else if r.r3 = dist then 3
  else 4

/-- Modelled from the spec: the constants `minDistance`, `maxDistance`,
`MinLength`, `MaxLength` of package lzbase are not under src/ (only
writer.go is).  The spec fixes the operation ranges as distance in
[1, 2^32-1] and length in [2, 273]. -/
def minDistance : Int := 1

/-- Modelled from the spec: see `minDistance`. -/
def maxDistance : Int := 2 ^ 32 - 1

/-- Modelled from the spec: see `minDistance`. -/
def MinLength : Int := 2

/-- Modelled from the spec: see `minDistance`. -/
def MaxLength : Int := 273

inductive WMErr where
  | distanceOutOfRange
  | lengthOutOfRange
deriving DecidableEq, Repr

/-- Range-coder symbols emitted by `writeMatch`, recorded abstractly. -/
inductive EncStep where
  | isMatchBit (b : Nat)
  | isRepBit (b : Nat)
  | isRepG0Bit (b : Nat)
  | isRepG0LongBit (b : Nat)
  | isRepG1Bit (b : Nat)
  | isRepG2Bit (b : Nat)
  | lenSym (n : Nat)
  | distSym (dist n : Nat)
  | repLenSym (n : Nat)
deriving DecidableEq, Repr

/-- Embedding of `Writer.writeMatch` (writer.go lines 235-308).  Returns the
error (if any), the registers after the call, and the list of emitted
range-coder symbols.  The register assignments are translated in source
order; `iverson` conditions become `if` tests on the branch index `g`. -/
def writeMatch (r : Reps) (distance length : Int) : Option WMErr × Reps × List EncStep :=
  if ¬(minDistance ≤ distance ∧ distance ≤ maxDistance) then
    (some .distanceOutOfRange, r, [])
  else
    let dist : Nat := (distance - minDistance).toNat
    if ¬(MinLength ≤ length ∧ length ≤ MaxLength) ∧ ¬((dist : Int) = (r.r0 : Int) ∧ length = 1) then
      (some .lengthOutOfRange, r, [])
    else
      let g := gIndex r dist
      let n : Nat := (length - MinLength).toNat
      let e0 := [EncStep.isMatchBit 1, EncStep.isRepBit (if g < 4 then 1 else 0)]
      if 4 ≤ g then
        -- simple match: oc.rep[3], oc.rep[2], oc.rep[1], oc.rep[0] =
        --               oc.rep[2], oc.rep[1], oc.rep[0], dist
        (none, ⟨dist, r.r0, r.r1, r.r2⟩, e0 ++ [.lenSym n, .distSym dist n])
      else
        let e1 := e0 ++ [EncStep.isRepG0Bit (if g ≠ 0 then 1 else 0)]
        if g = 0 then
          let b : Nat := if length ≠ 1 then 1 else 0
          let e2 := e1 ++ [EncStep.isRepG0LongBit b]
          if b = 0 then
            -- short rep: registers unchanged
            (none, r, e2)
          else
            -- rep0 match: registers unchanged
            (none, r, e2 ++ [.repLenSym n])
        else
          let e2 := e1 ++ [EncStep.isRepG1Bit (if g ≠ 1 then 1 else 0)]
          if g = 1 then
            -- rep[1] = rep[0]; rep[0] = dist
            (none, ⟨dist, r.r0, r.r2, r.r3⟩, e2 ++ [.repLenSym n])
          else
            let e3 := e2 ++ [EncStep.isRepG2Bit (if g ≠ 2 then 1 else 0)]
            if g = 2 then
              -- rep[2] = rep[1]; rep[1] = rep[0]; rep[0] = dist
              (none, ⟨dist, r.r0, r.r1, r.r3⟩, e3 ++ [.repLenSym n])
            else
              -- rep[3] = rep[2]; rep[2] = rep[1]; rep[1] = rep[0]; rep[0] = dist
              (none, ⟨dist, r.r0, r.r1, r.r2⟩, e3 ++ [.repLenSym n])

/-! ## Decoder register updates (src/lzma_1/reader.go, lines 144-236)

`readSeq` branches on the decoded bits.  The register effect of each branch
is embedded separately: `decSimpleRepUpdate` for a simple match with a newly
decoded distance, `decRepUpdate` for a rep match selecting index `g`
(index 0 covers both the short rep and the rep0 long match, neither of
which assigns to any register). -/

/-- Simple-match branch of `readSeq` (reader.go lines 167-189):
`rep[3], rep[2], rep[1] = rep[2], rep[1], rep[0]` followed by decoding the
new `rep[0]`. -/
def decSimpleRepUpdate (r : Reps) (newDist : Nat) : Reps :=
  ⟨newDist, r.r0, r.r1, r.r2⟩

/-- Rep-match branch of `readSeq` (reader.go lines 190-228), returning both
the updated registers and the distance used for the match. -/
def decRepUpdate (r : Reps) (g : Nat) : Reps × Nat :=
  match g with
  | 0 => (r, r.r0)
  | 1 =>
    -- dist = rep[1]; rep[1] = rep[0]; rep[0] = dist
    (⟨r.r1, r.r0, r.r2, r.r3⟩, r.r1)
  | 2 =>
    -- dist = rep[2]; rep[2] = rep[1]; rep[1] = rep[0]; rep[0] = dist
    (⟨r.r2, r.r0, r.r1, r.r3⟩, r.r2)
  | _ =>
    -- dist = rep[3]; rep[3] = rep[2]; rep[2] = rep[1]; rep[1] = rep[0]; rep[0] = dist
    (⟨r.r3, r.r0, r.r1, r.r2⟩, r.r3)

/-! Specification-side helpers for claim C3: the shift and the prefix
rotation of the register tuple, written from the words of the spec. -/

/-- Shift right and set `rep0` to the new distance. -/
def shiftReps (d : Nat) (r : Reps) : Reps :=
  ⟨d, r.r0, r.r1, r.r2⟩

/-- Rotate the prefix of length `g+1` so that `rep0` becomes the old
`rep g`. -/
def rotateReps (g : Nat) (r : Reps) : Reps :=
  match g with
  | 0 => r
  | 1 => ⟨r.r1, r.r0, r.r2, r.r3⟩
  | 2 => ⟨r.r2, r.r0, r.r1, r.r3⟩
  | _ => ⟨r.r3, r.r0, r.r1, r.r2⟩

/-! ## LZMA1 decode loop (src/lzma_1/reader.go, lines 238-284)

`reader.fillBuffer` drives `readSeq` until the dictionary has too little
room, the declared uncompressed size is reached, or the decode fails.  The
range decoder and the probability codecs behind `readSeq` are not under
src/, so a `readSeq` call is abstracted as the next element of an oracle
list of outcomes; each outcome carries the value of `rd.possiblyAtEnd()`
after the call.  `limit` is `uncompressedLimit` (negative when the
uncompressed size is unknown) and `pos` is `dict.Pos()`.  Writing decoded
bytes into the dictionary is assumed to succeed except for the explicit
`seqBad` outcome, which stands for a `WriteMatch` failure. -/

/-- `maxMatchLen` of package lzma_1 (value 273 per the spec operation
range; the constant declaration itself is not under src/). -/
def maxMatchLen : Nat := 273

inductive SeqOutcome where
  | seq (len : Nat) (atEnd : Bool)
  | seqBad (len : Nat) (atEnd : Bool)
  | eos (atEnd : Bool)
  | eofIn (atEnd : Bool)
  | fail (atEnd : Bool)
deriving DecidableEq, Repr

/-- The loop body of `fillBuffer` (reader.go lines 242-282).  Returns the
error stored into `r.err` (`none` when the loop pauses because the
dictionary lacks `maxMatchLen` bytes of room), the final `dict.Pos()`, and
the unconsumed oracle. -/
def fillLoop (pos limit : Int) (avail : Nat) (outs : List SeqOutcome) :
    Option Err × Int × List SeqOutcome :=
  if avail < maxMatchLen then (none, pos, outs)
  else
    match outs with
    | [] => (some .oracleEnd, pos, [])
    | .fail _ :: rest =>
      -- errors other than errEOS and io.EOF are latched unchanged
      (some (.other 0), pos, rest)
    | .eos aE :: rest =>
      -- case errEOS: clean EOF only at the end of the range-coded data
      -- and when the size is unknown or exactly reached
      (if aE ∧ (limit < 0 ∨ limit = pos) then some .eof else some .eosMarker, pos, rest)
    | .eofIn aE :: rest =>
      -- case io.EOF: premature unless at the end with the size reached
      (if ¬aE ∨ limit ≠ pos then some .unexpectedEOF else some .eof, pos, rest)
    | .seqBad _ _ :: rest =>
      -- dict.WriteMatch failed; the error is latched
      (some (.other 1), pos, rest)
    | .seq len aE :: rest =>
      let pos' := pos + len
      if limit = pos' then
        -- the declared uncompressed size is reached exactly
        if aE then (some .eof, pos', rest)
        else
          -- probe one more readSeq: only an EOS marker followed by the
          -- end of the data keeps err = io.EOF
          match rest with
          | .eos aE2 :: rest2 =>
            (if aE2 then some .eof else some .errEncoding, pos', rest2)
          | [] => (some .errEncoding, pos', [])
          | _ :: rest2 => (some .errEncoding, pos', rest2)
      else fillLoop pos' limit (avail - len) rest

/-- Embedding of `reader.fillBuffer` (reader.go lines 238-284) including the
latch check on entry. -/
def fillBuffer (latched : Option Err) (pos limit : Int) (avail : Nat)
    (outs : List SeqOutcome) : Option Err × Int × List SeqOutcome :=
  match latched with
  | some e => (some e, pos, outs)
  | none => fillLoop pos limit avail outs

/-! ## LZMA1 reader Read loop (src/lzma_1/reader.go, lines 286-301)

`reader.Read` drains the dictionary buffer into `p`, refilling it with
`fillBuffer` and returning a fill error only once the dictionary is empty.
For this claim a `fillBuffer` call is abstracted as the next element of an
oracle list: the bytes the call appended to the dictionary, and the error
it returned (if any). -/

inductive FillRes where
  | ok (produced : List Nat)
  | fail (produced : List Nat) (e : Err)
deriving DecidableEq, Repr

/-- Bytes a fill call appended to the dictionary. -/
def FillRes.produced : FillRes → List Nat
  | .ok p => p
  | .fail p _ => p

/-- Embedding of `reader.Read` (reader.go lines 286-301).  `dict` holds the
decoded-but-undelivered bytes, `need` is `len(p)`.  Returns the delivered
bytes, the returned error, the remaining dictionary content, and the
unconsumed oracle.  Reading from the dictionary never returns an error
(comment at reader.go line 288). -/
def lzma1Read (dict : List Nat) (steps : List FillRes) (need : Nat) :
    List Nat × Option Err × List Nat × List FillRes :=
  let k := min need dict.length
  let out := dict.take k
  let dict' := dict.drop k
  let need' := need - k
  if need' = 0 then (out, none, dict', steps)
  else
    match steps with
    | [] => (out, some .oracleEnd, dict', [])
    | .ok produced :: rest =>
      let r := lzma1Read (dict' ++ produced) rest need'
      (out ++ r.1, r.2.1, r.2.2.1, r.2.2.2)
    | .fail produced e :: rest =>
      if (dict' ++ produced).length > 0 then
        -- if r.dict.Len() > 0 { continue }
        let r := lzma1Read (dict' ++ produced) rest need'
        (out ++ r.1, r.2.1, r.2.2.1, r.2.2.2)
      else (out, some e, dict', rest)

/-! ## LZMA2 stream splitting for the parallel decoder
(src/unnamed/part_001, lines 262-299)

`splitStream` scans chunk headers to cut the stream into blocks.  The chunk
header parser `peekChunkHeader` and the control constants are not under
src/; they are modelled from the spec chunk-header table: `cEOS` (0x00),
`cU` (0x02, uncompressed, no reset), `cUD` (0x01, uncompressed with dict
reset), and the compressed forms `cC`, `cCS`, `cCSP`, `cCSPD` whose reset
mode grows from none to dict+state+properties.  A stream is modelled as a
list of complete chunks, so the payload copy always succeeds; input
exhaustion at a header read is the `io.EOF` that `splitStream` converts to
`io.ErrUnexpectedEOF`. -/

inductive ChunkControl where
  | cEOS
  | cU
  | cUD
  | cC
  | cCS
  | cCSP
  | cCSPD
deriving DecidableEq, Repr

structure ChunkHeader where
  control : ChunkControl
  size : Nat
  compressedSize : Nat
deriving DecidableEq, Repr

/-- Embedding of `splitStream` (part_001 lines 267-300).  Returns the
decompressed size of the block, whether the block can be decoded in
parallel, and the error (`none` stands for Go `nil`). -/
def splitStream (chunks : List ChunkHeader) (size n : Nat) : Nat × Bool × Option Err :=
  match chunks with
  | [] => (0, false, some .unexpectedEOF)
  | hdr :: rest =>
    if (hdr.control = .cUD ∨ hdr.control = .cCSPD) ∧ n > 0 then (n, true, none)
    else if hdr.control = .cEOS then (n, true, some .eof)
    else
      let n' := n + hdr.size
      if n' > size then (0, false, some .eof)
      else splitStream rest size n'

/-! ## Encoder candidate offsets (src/lzbase/writer.go, lines 82-108)

`Writer.potentialOffsets` collects candidate match offsets: a window-guarded
loop over distances (the loop runs `i = 1 .. 10` although the comment above
it says distance 1 to 8), the hash-table candidates when a full 4-byte head
was peeked, and the four repetition distances.  `head` is `Dict.Offset()`
and `start` is `Dict.start`. -/

def potentialOffsets (head start : Int) (rep : Reps) (hashOffs : List Int)
    (plen : Nat) : List Int :=
  let offs1 := (List.range 10).filterMap (fun (j : Nat) =>
    if start ≤ head - ((j : Int) + 1) then some (head - ((j : Int) + 1)) else none)
  let offs2 := if plen = 4 then hashOffs else []
  let offs3 := [3, 2, 1, 0].filterMap (fun g =>
    if start ≤ head - ((repAt rep g : Int) + minDistance)
    then some (head - ((repAt rep g : Int) + minDistance)) else none)
  offs1 ++ offs2 ++ offs3

/-- Written from the words of claim C7, for comparison with
`potentialOffsets`: the hash-chain candidates augmented with the offsets at
distances 1 through 8 within the window and the four rep-register
distances, with duplicates removed. -/
def claimedOffsets (head start : Int) (rep : Reps) (hashOffs : List Int) : List Int :=
  (hashOffs
    ++ (List.range 8).filterMap (fun (j : Nat) =>
      if start ≤ head - ((j : Int) + 1) then some (head - ((j : Int) + 1)) else none)
    ++ [0, 1, 2, 3].filterMap (fun g =>
      if start ≤ head - ((repAt rep g : Int) + minDistance)
      then some (head - ((repAt rep g : Int) + minDistance)) else none)).dedup

/-! ## Error latching (claim C9)

Three operations are embedded: `mtWriter.Write` (src/lzma/writer2.go,
lines 206-250), `mtReader.Read` (src/unnamed/part_001, lines 117-146) and
the LZMA2 chunk `Reader.Read` (src/unnamed/part_000, lines 132-152).  The
goroutine channels and the inner chunk codecs are outside the embedded
functions; each channel interaction or inner call is abstracted as the next
element of an oracle list.  When an oracle runs out, or an oracle element
does not have the shape the control flow demands, the embedding returns
`(n, none)` without touching the state, which is neutral for the latching
properties under study. -/

structure MtWriterSt where
  err : Option Err
  buf : List Nat
  workers : Nat
deriving DecidableEq, Repr

/-- The loop of `mtWriter.Write` (writer2.go lines 217-249).  One `polls`
element per iteration gives, for each of the two `select` statements, the
error received from `errCh` (`none` when the send to the task or output
channel wins).  Returns the count of accepted bytes, the returned error,
and the final state. -/
def mtwLoop (bufSize maxWorkers : Nat) (st : MtWriterSt) (p : List Nat) (n : Nat)
    (polls : List (Option Err × Option Err)) : Nat × Option Err × MtWriterSt :=
  match p with
  | [] => (n, none, st)
  | _ :: _ =>
    let k := bufSize - st.buf.length
    if k ≥ p.length then
      (n + p.length, none, { st with buf := st.buf ++ p })
    else
      let workers' := if st.workers < maxWorkers then st.workers + 1 else st.workers
      let buf' := st.buf ++ p.take k
      match polls with
      | [] => (n, none, st)
      | (poll1, poll2) :: rest =>
        match poll1 with
        | some e => (n, some e, { err := some e, buf := buf', workers := workers' })
        | none =>
          match poll2 with
          | some e => (n, some e, { err := some e, buf := buf', workers := workers' })
          | none =>
            mtwLoop bufSize maxWorkers { err := none, buf := [], workers := workers' }
              (p.drop k) (n + k) rest

/-- Embedding of `mtWriter.Write` (writer2.go lines 206-250): the latch
check, the initial non-blocking poll of `errCh`, then the buffering loop. -/
def mtwWrite (bufSize maxWorkers : Nat) (st : MtWriterSt) (p : List Nat)
    (poll0 : Option Err) (polls : List (Option Err × Option Err)) :
    Nat × Option Err × MtWriterSt :=
  match st.err with
  | some e => (0, some e, st)
  | none =>
    match poll0 with
    | some e => (0, some e, { st with err := some e })
    | none => mtwLoop bufSize maxWorkers st p 0 polls

structure MtReaderSt where
  err : Option Err
  hasCur : Bool
deriving DecidableEq, Repr

/-- Oracle elements for `mtReader.Read`: a receive from the closed output
channel, a received task (with its reader), or a read result of the current
task reader. -/
inductive MtrStep where
  | recvClosed
  | recvTask
  | readRes (k : Nat) (e : Option Err)
deriving DecidableEq, Repr

/-- The loop of `mtReader.Read` (part_001 lines 121-144). -/
def mtrLoop (hasCur : Bool) (n need : Nat) (steps : List MtrStep) :
    Nat × Option Err × MtReaderSt :=
  if need ≤ n then (n, none, ⟨none, hasCur⟩)
  else
    match steps with
    | [] => (n, none, ⟨none, hasCur⟩)
    | step :: rest =>
      if hasCur then
        match step with
        | .readRes k e =>
          let n' := n + k
          match e with
          | none => mtrLoop true n' need rest
          | some .eof =>
            -- err == io.EOF: r.r = nil; continue
            mtrLoop false n' need rest
          | some e' => (n', some e', ⟨some e', true⟩)
        | _ => (n, none, ⟨none, hasCur⟩)
      else
        match step with
        | .recvClosed =>
          -- channel closed: r.err = io.EOF; only a read that moved no
          -- bytes returns the error at once
          if n = 0 then (0, some .eof, ⟨some .eof, false⟩)
          else (n, none, ⟨some .eof, false⟩)
        | .recvTask => mtrLoop true n need rest
        | .readRes _ _ => (n, none, ⟨none, hasCur⟩)

/-- Embedding of `mtReader.Read` (part_001 lines 117-146). -/
def mtrRead (st : MtReaderSt) (need : Nat) (steps : List MtrStep) :
    Nat × Option Err × MtReaderSt :=
  match st.err with
  | some e => (0, some e, st)
  | none => mtrLoop st.hasCur 0 need steps

/-- Oracle elements for the LZMA2 chunk `Reader.Read`: one loop iteration
reads from the current chunk reader (`k` bytes) and resolves an `io.EOF`
through `startChunk`; `e` is the error after that resolution. -/
structure L2It where
  k : Nat
  e : Option Err
deriving DecidableEq, Repr

/-- The loop of the LZMA2 `Reader.Read` (part_000 lines 136-151).  Returns
the byte count, the returned error and the newly latched error.  The
`noData` guard error (line 148) is returned without being latched. -/
def l2Loop (n need : Nat) (its : List L2It) : Nat × Option Err × Option Err :=
  if need ≤ n then (n, none, none)
  else
    match its with
    | [] => (n, none, none)
    | it :: rest =>
      let n' := n + it.k
      match it.e with
      | some e' => (n', some e', some e')
      | none =>
        if it.k = 0 then (n', some .noData, none)
        else l2Loop n' need rest

/-- Embedding of the LZMA2 chunk `Reader.Read` (part_000 lines 132-152);
the state is the latched error. -/
def l2Read (latched : Option Err) (need : Nat) (its : List L2It) :
    Nat × Option Err × Option Err :=
  match latched with
  | some e => (0, some e, latched)
  | none => l2Loop 0 need its

/-- A fatal error of the LZMA2 chunk reader: every error except the
transient `noData` guard, which does not originate from the underlying
chunk operations. -/
def fatalL2 (e : Err) : Prop := e ≠ .noData

/-! # Theorems for the claims -/

/-- Claim C5, counterexample: the claim says parsing the properties byte
fails exactly when the byte is greater than 225, yet `fromByte` fails on
the byte 225 itself, which is not greater than 225. -/
theorem c5_counterexample :
    Properties.fromByte 225 = none ∧ ¬(225 > 225) := by
  decide

/-- Claim C5 as amended: parsing the properties byte fails exactly when the
byte is greater than 224; every byte up to 224 decodes to properties
satisfying the encoding (PB*5 + LP)*9 + LC = b, with LC at most 8, LP and
PB at most 4. -/
theorem c5_props_byte (b : Nat) :
    (Properties.fromByte b = none ↔ 224 < b) ∧
    (∀ p : Properties, Properties.fromByte b = some p →
      p.toByte = b ∧ p.LC ≤ 8 ∧ p.LP ≤ 4 ∧ p.PB ≤ 4) := by
  simp only [Properties.fromByte]
  split_ifs with h
  · constructor
    · simp only [true_iff]
      omega
    · intro p hp
      cases hp
  · constructor
    · have hb : ¬(224 < b) := by omega
      simp [hb]
    · intro p hp
      cases hp
      simp only [Properties.toByte]
      refine ⟨?_, ?_, ?_, ?_⟩ <;> omega

/-- With a size declared in the header, every Write whose bytes would pass
the declared size reaches the reslice `p[:params.Size-end]`, whose bound
`Size - end` is negative, a slice-bounds panic: the embedding returns
`none` on every such input. -/
theorem writeTruncate_exceeds_none (dictEnd size : Int) (plen : Nat)
    (h : dictEnd + plen > size) : writeTruncate dictEnd size true plen = none := by
  unfold writeTruncate
  by_cases h0 : dictEnd + (plen : Int) < 0
  · simp [h0]
  · simp only [h0, if_false]
    have hgt : dictEnd + (plen : Int) > size := h
    simp only [true_and, hgt, if_pos]
    have hm : size - (dictEnd + (plen : Int)) < 0 := by omega
    simp [hm]

/-- Claim C4, evaluation of the failing input: Size 5 declared in the
header, Dict.end 0, and a 10-byte Write reach the panicking slice
expression instead of accepting 5 bytes with the WriteExceedsSize error. -/
theorem c4_write_exceeds_panics :
    writeTruncate 0 5 true 10 = none ∧ writeTruncate 3 100 true 200 = none :=
  ⟨writeTruncate_exceeds_none 0 5 10 (by norm_num),
   writeTruncate_exceeds_none 3 100 200 (by norm_num)⟩

/-- Claim C7, counterexample: at head 100, window start 0, empty hash-chain
candidate list and repetition registers (0, 1, 2, 3), the produced list
contains the offset 91 (distance 9, outside 1..8 and not a rep distance)
and contains the offset 99 twice, while the list described by the claim
(hash candidates, distances 1..8 in the window, rep distances,
deduplicated) contains neither; and with only 3 peeked head bytes the
hash-chain candidate 50 is dropped although the claim includes it. -/
theorem c7_counterexample :
    potentialOffsets 100 0 ⟨0, 1, 2, 3⟩ [] 4
      = [99, 98, 97, 96, 95, 94, 93, 92, 91, 90, 96, 97, 98, 99] ∧
    (91 : Int) ∈ potentialOffsets 100 0 ⟨0, 1, 2, 3⟩ [] 4 ∧
    (91 : Int) ∉ claimedOffsets 100 0 ⟨0, 1, 2, 3⟩ [] ∧
    (potentialOffsets 100 0 ⟨0, 1, 2, 3⟩ [] 4).count 99 = 2 ∧
    (claimedOffsets 100 0 ⟨0, 1, 2, 3⟩ []).count 99 = 1 ∧
    (50 : Int) ∉ potentialOffsets 100 0 ⟨0, 1, 2, 3⟩ [50] 3 ∧
    (50 : Int) ∈ claimedOffsets 100 0 ⟨0, 1, 2, 3⟩ [50] := by
  refine ⟨by decide, by decide, by decide, by decide, by decide, by decide, by decide⟩

/-- Claim C7 as amended: the candidate list consists of the offsets at
distances 1 through 10 that lie within the window, the hash-chain
candidates when a full 4-byte head prefix was peeked, and the four
rep-register distances within the window; duplicates are not removed. -/
theorem c7_potential_offsets (head start : Int) (rep : Reps) (hashOffs : List Int)
    (plen : Nat) (x : Int) :
    x ∈ potentialOffsets head start rep hashOffs plen ↔
      (∃ i : Nat, 1 ≤ i ∧ i ≤ 10 ∧ x = head - i ∧ start ≤ x) ∨
      (plen = 4 ∧ x ∈ hashOffs) ∨
      (∃ g : Nat, g < 4 ∧ x = head - (repAt rep g + 1) ∧ start ≤ x) := by
  by_cases hp : plen = 4 <;>
    simp only [potentialOffsets, hp, List.mem_append, List.mem_filterMap, List.mem_range,
      Option.ite_none_right_eq_some, Option.some.injEq, List.mem_cons, List.not_mem_nil,
      or_false, if_true, eq_self_iff_true, true_and, false_and, if_false, iff_false,
      not_false_eq_true, minDistance]
  · constructor
    · rintro ((⟨j, hj, hs, hx⟩ | h2) | ⟨g, hg, hs, hx⟩)
      · exact Or.inl ⟨j + 1, by omega, by omega, by omega, by omega⟩
      · exact Or.inr (Or.inl h2)
      · exact Or.inr (Or.inr ⟨g, by omega, by omega, by omega⟩)
    · rintro (⟨i, h1, h2, hx, hs⟩ | hmem | ⟨g, hg, hx, hs⟩)
      · exact Or.inl (Or.inl ⟨i - 1, by omega, by omega, by omega⟩)
      · exact Or.inl (Or.inr hmem)
      · exact Or.inr ⟨g, by omega, by omega, by omega⟩
  · constructor
    · rintro (⟨j, hj, hs, hx⟩ | ⟨g, hg, hs, hx⟩)
      · exact Or.inl ⟨j + 1, by omega, by omega, by omega, by omega⟩
      · exact Or.inr (Or.inr ⟨g, by omega, by omega, by omega⟩)
    · rintro (⟨i, h1, h2, hx, hs⟩ | hmem | ⟨g, hg, hx, hs⟩)
      · exact Or.inl ⟨i - 1, by omega, by omega, by omega⟩
      · exact hmem.elim
      · exact Or.inr ⟨g, by omega, by omega, by omega⟩

/-! Helper lemmas about the register search and the `writeMatch` branches;
shared by the theorems for claims C3 and C8. -/

theorem gIndex_le_four (r : Reps) (d : Nat) : gIndex r d ≤ 4 := by
  unfold gIndex
  split_ifs <;> omega

theorem gIndex_eq_zero (r : Reps) (d : Nat) (h : gIndex r d = 0) : r.r0 = d := by
  unfold gIndex at h
  split_ifs at h <;> first | assumption | omega

theorem gIndex_eq_one (r : Reps) (d : Nat) (h : gIndex r d = 1) : r.r1 = d := by
  unfold gIndex at h
  split_ifs at h <;> first | assumption | omega

theorem gIndex_eq_two (r : Reps) (d : Nat) (h : gIndex r d = 2) : r.r2 = d := by
  unfold gIndex at h
  split_ifs at h <;> first | assumption | omega

theorem gIndex_eq_three (r : Reps) (d : Nat) (h : gIndex r d = 3) : r.r3 = d := by
  unfold gIndex at h
  split_ifs at h <;> first | assumption | omega

/-- The register component of `writeMatch` after a passed validation,
expressed by cases on the branch index. -/
theorem writeMatch_reps (r : Reps) (distance length : Int)
    (hd : minDistance ≤ distance ∧ distance ≤ maxDistance)
    (hC : ¬(¬(MinLength ≤ length ∧ length ≤ MaxLength) ∧
      ¬(((distance - minDistance).toNat : Int) = (r.r0 : Int) ∧ length = 1))) :
    (writeMatch r distance length).2.1 =
      (if gIndex r (distance - minDistance).toNat = 4 then
        ⟨(distance - minDistance).toNat, r.r0, r.r1, r.r2⟩
      else if gIndex r (distance - minDistance).toNat = 0 then r
      else if gIndex r (distance - minDistance).toNat = 1 then
        ⟨(distance - minDistance).toNat, r.r0, r.r2, r.r3⟩
      else if gIndex r (distance - minDistance).toNat = 2 then
        ⟨(distance - minDistance).toNat, r.r0, r.r1, r.r3⟩
      else ⟨(distance - minDistance).toNat, r.r0, r.r1, r.r2⟩ : Reps) := by
  have h4 := gIndex_le_four r (distance - minDistance).toNat
  simp only [writeMatch, if_neg (not_not_intro hd), if_neg hC]
  split_ifs <;> first | rfl | omega

/-- The error component of `writeMatch` after a passed validation. -/
theorem writeMatch_err_none (r : Reps) (distance length : Int)
    (hd : minDistance ≤ distance ∧ distance ≤ maxDistance)
    (hC : ¬(¬(MinLength ≤ length ∧ length ≤ MaxLength) ∧
      ¬(((distance - minDistance).toNat : Int) = (r.r0 : Int) ∧ length = 1))) :
    (writeMatch r distance length).1 = none := by
  simp only [writeMatch, if_neg (not_not_intro hd), if_neg hC]
  split_ifs <;> rfl

/-- Claim C8: `writeMatch` fails with a distance error exactly on a distance
outside [1, 2^32-1]; with a valid distance it fails with a length error
exactly on a length outside [2, 273] that is not the rep0 length-1 short
rep; and on a failure the registers are untouched and no range-coder symbol
is emitted. -/
theorem c8_write_match_validation (r : Reps) (distance length : Int) :
    ((writeMatch r distance length).1 = some WMErr.distanceOutOfRange ↔
      ¬(1 ≤ distance ∧ distance ≤ 2 ^ 32 - 1)) ∧
    (1 ≤ distance → distance ≤ 2 ^ 32 - 1 →
      ((writeMatch r distance length).1 = some WMErr.lengthOutOfRange ↔
        (¬(2 ≤ length ∧ length ≤ 273) ∧ ¬(distance - 1 = (r.r0 : Int) ∧ length = 1)))) ∧
    (∀ e, (writeMatch r distance length).1 = some e →
      (writeMatch r distance length).2.1 = r ∧ (writeMatch r distance length).2.2 = []) := by
  by_cases hd : minDistance ≤ distance ∧ distance ≤ maxDistance
  · have hd' : 1 ≤ distance ∧ distance ≤ 2 ^ 32 - 1 := by
      simpa [minDistance, maxDistance] using hd
    by_cases hC : ¬(MinLength ≤ length ∧ length ≤ MaxLength) ∧
        ¬(((distance - minDistance).toNat : Int) = (r.r0 : Int) ∧ length = 1)
    · have hw : writeMatch r distance length = (some .lengthOutOfRange, r, []) := by
        simp only [writeMatch, if_neg (not_not_intro hd), if_pos hC]
      refine ⟨?_, ?_, ?_⟩
      · rw [hw]
        constructor
        · intro h
          simp at h
        · intro hcon
          exact (hcon hd').elim
      · intro _ _
        rw [hw]
        simp only [Option.some.injEq, true_iff]
        simp only [minDistance, MinLength, MaxLength] at hC
        obtain ⟨hC1, hC2⟩ := hC
        refine ⟨hC1, fun hcon => hC2 ⟨?_, hcon.2⟩⟩
        omega
      · intro e he
        rw [hw]
        exact ⟨rfl, rfl⟩
    · have hnone := writeMatch_err_none r distance length hd hC
      refine ⟨?_, ?_, ?_⟩
      · rw [hnone]
        constructor
        · intro h
          cases h
        · intro hcon
          exact (hcon hd').elim
      · intro _ _
        rw [hnone]
        simp only [minDistance, MinLength, MaxLength] at hC
        constructor
        · intro hcon
          cases hcon
        · intro hcon
          refine absurd ⟨hcon.1, fun hshort => hcon.2 ⟨?_, hshort.2⟩⟩ hC
          omega
      · intro e he
        rw [hnone] at he
        cases he
  · have hw : writeMatch r distance length = (some .distanceOutOfRange, r, []) := by
      simp only [writeMatch, if_pos hd]
    have hd' : ¬(1 ≤ distance ∧ distance ≤ 2 ^ 32 - 1) := by
      simpa [minDistance, maxDistance] using hd
    refine ⟨?_, ?_, ?_⟩
    · rw [hw]
      constructor
      · intro _
        exact hd'
      · intro _
        rfl
    · intro h1 h2
      exact absurd ⟨h1, h2⟩ hd'
    · intro e he
      rw [hw]
      exact ⟨rfl, rfl⟩

/-- Closed witness for `c8_write_match_validation`: a length-0 match at the
valid distance 5 fails with the length error. -/
theorem c8_write_match_validation_witness :
    (writeMatch ⟨9, 1, 2, 3⟩ 5 0).1 = some WMErr.lengthOutOfRange :=
  ((c8_write_match_validation ⟨9, 1, 2, 3⟩ 5 0).2.1 (by norm_num)
    (by norm_num)).mpr (by constructor <;> omega)

/-- Claim C3: a simple match with a new distance shifts the registers right
and sets rep0 to it; a rep match at index g rotates the prefix of length
g+1 so rep0 becomes the old rep g; a short rep leaves the registers
unchanged; and the effect of the encoder `writeMatch` coincides with that
of the decoder `readSeq` on each branch. -/
theorem c3_rep_register_updates :
    (∀ (r : Reps) (d : Nat), decSimpleRepUpdate r d = shiftReps d r) ∧
    (∀ (r : Reps) (g : Nat), g < 4 →
      decRepUpdate r g = (rotateReps g r, repAt r g)) ∧
    (∀ (r : Reps) (distance length : Int),
      minDistance ≤ distance → distance ≤ maxDistance →
      MinLength ≤ length → length ≤ MaxLength →
      gIndex r (distance - minDistance).toNat = 4 →
      (writeMatch r distance length).2.1 = shiftReps (distance - minDistance).toNat r ∧
      (writeMatch r distance length).2.1
        = decSimpleRepUpdate r (distance - minDistance).toNat) ∧
    (∀ (r : Reps) (distance length : Int) (g : Nat),
      minDistance ≤ distance → distance ≤ maxDistance →
      MinLength ≤ length → length ≤ MaxLength →
      gIndex r (distance - minDistance).toNat = g → g < 4 →
      (writeMatch r distance length).2.1 = rotateReps g r ∧
      repAt r g = (distance - minDistance).toNat ∧
      (writeMatch r distance length).2.1 = (decRepUpdate r g).1) ∧
    (∀ (r : Reps) (distance : Int),
      minDistance ≤ distance → distance ≤ maxDistance →
      (distance - minDistance).toNat = r.r0 →
      (writeMatch r distance 1).2.1 = r) := by
  refine ⟨fun r d => rfl, ?_, ?_, ?_, ?_⟩
  · intro r g hg
    interval_cases g <;> rfl
  · intro r distance length h1 h2 h3 h4 hg
    have hC : ¬(¬(MinLength ≤ length ∧ length ≤ MaxLength) ∧
        ¬(((distance - minDistance).toNat : Int) = (r.r0 : Int) ∧ length = 1)) :=
      fun h => h.1 ⟨h3, h4⟩
    have hr := writeMatch_reps r distance length ⟨h1, h2⟩ hC
    rw [hr, if_pos hg]
    exact ⟨rfl, rfl⟩
  · intro r distance length g h1 h2 h3 h4 hg hg4
    have hC : ¬(¬(MinLength ≤ length ∧ length ≤ MaxLength) ∧
        ¬(((distance - minDistance).toNat : Int) = (r.r0 : Int) ∧ length = 1)) :=
      fun h => h.1 ⟨h3, h4⟩
    have hr := writeMatch_reps r distance length ⟨h1, h2⟩ hC
    rw [hg] at hr
    interval_cases g
    · have h0 := gIndex_eq_zero r (distance - minDistance).toNat hg
      rw [hr]
      exact ⟨by simp [rotateReps, h0], by simpa [repAt] using h0,
        by simp [decRepUpdate, h0]⟩
    · have h0 := gIndex_eq_one r (distance - minDistance).toNat hg
      rw [hr]
      exact ⟨by simp [rotateReps, h0], by simpa [repAt] using h0,
        by simp [decRepUpdate, h0]⟩
    · have h0 := gIndex_eq_two r (distance - minDistance).toNat hg
      rw [hr]
      exact ⟨by simp [rotateReps, h0], by simpa [repAt] using h0,
        by simp [decRepUpdate, h0]⟩
    · have h0 := gIndex_eq_three r (distance - minDistance).toNat hg
      rw [hr]
      exact ⟨by simp [rotateReps, h0], by simpa [repAt] using h0,
        by simp [decRepUpdate, h0]⟩
  · intro r distance h1 h2 hs
    have hC : ¬(¬(MinLength ≤ (1 : Int) ∧ (1 : Int) ≤ MaxLength) ∧
        ¬(((distance - minDistance).toNat : Int) = (r.r0 : Int) ∧ (1 : Int) = 1)) :=
      fun h => h.2 ⟨by rw [hs], rfl⟩
    have hr := writeMatch_reps r distance 1 ⟨h1, h2⟩ hC
    have hg0 : gIndex r (distance - minDistance).toNat = 0 := by
      unfold gIndex
      rw [if_pos hs.symm]
    rw [hr, hg0]
    norm_num

/-- Closed witness for `c3_rep_register_updates`: a rep match at index 2 on
registers (5, 6, 7, 8) rotates the prefix of length 3. -/
theorem c3_rep_register_updates_witness :
    (writeMatch ⟨5, 6, 7, 8⟩ 8 10).2.1 = rotateReps 2 ⟨5, 6, 7, 8⟩ :=
  (c3_rep_register_updates.2.2.2.1 ⟨5, 6, 7, 8⟩ 8 10 2 (by norm_num [minDistance])
    (by norm_num [maxDistance]) (by norm_num [MinLength]) (by norm_num [MaxLength])
    (by decide) (by norm_num)).1

/-! Helper lemmas for claim C2 on the `fillBuffer` loop. -/

/-- A clean stop (`io.EOF`) of the decode loop with a known uncompressed
size happens only with the position exactly at the size. -/
theorem fillLoop_eof_exact (outs : List SeqOutcome) :
    ∀ (pos limit : Int) (avail : Nat) (posF : Int) (rest : List SeqOutcome),
    0 ≤ limit →
    fillLoop pos limit avail outs = (some Err.eof, posF, rest) → posF = limit := by
  induction outs with
  | nil =>
    intro pos limit avail posF rest hl h
    simp only [fillLoop] at h
    split_ifs at h <;> simp_all
  | cons o tail ih =>
    intro pos limit avail posF rest hl h
    cases o with
    | seq len aE =>
      simp only [fillLoop] at h
      split_ifs at h with h1 h2 h3
      · simp_all
      · simp only [Prod.mk.injEq] at h
        omega
      · rcases tail with _ | ⟨o2, rest2⟩
        · simp_all
        · cases o2 <;> simp only [] at h <;> [skip; skip; split_ifs at h; skip; skip] <;>
            simp only [Prod.mk.injEq] at h <;> simp_all <;> omega
      · exact ih _ _ _ _ _ hl h
    | seqBad len aE =>
      simp only [fillLoop] at h
      split_ifs at h <;> simp_all
    | eos aE =>
      simp only [fillLoop] at h
      split_ifs at h with h1 h2
      · simp_all
      · simp only [Prod.mk.injEq] at h
        omega
      · simp_all
    | eofIn aE =>
      simp only [fillLoop] at h
      split_ifs at h with h1 h2
      · simp_all
      · simp_all
      · simp only [Prod.mk.injEq] at h
        push_neg at h2
        omega
    | fail aE =>
      simp only [fillLoop] at h
      split_ifs at h <;> simp_all

/-- With an unknown uncompressed size, a clean stop happens only by
consuming an EOS marker at the end of the data, after a run of ordinary
sequences. -/
theorem fillLoop_unknown_eos (outs : List SeqOutcome) :
    ∀ (pos limit : Int) (avail : Nat) (posF : Int) (rest : List SeqOutcome),
    limit < 0 → 0 ≤ pos →
    fillLoop pos limit avail outs = (some Err.eof, posF, rest) →
    ∃ pre, outs = pre ++ SeqOutcome.eos true :: rest ∧
      ∀ o ∈ pre, ∃ l aE, o = SeqOutcome.seq l aE := by
  induction outs with
  | nil =>
    intro pos limit avail posF rest hl hp h
    simp only [fillLoop] at h
    split_ifs at h <;> simp_all
  | cons o tail ih =>
    intro pos limit avail posF rest hl hp h
    cases o with
    | seq len aE =>
      simp only [fillLoop] at h
      split_ifs at h with h1 h2 h3
      · simp_all
      · omega
      · omega
      · obtain ⟨pre, hpre, hall⟩ := ih _ _ _ _ _ hl (by omega) h
        refine ⟨.seq len aE :: pre, by simp [hpre], ?_⟩
        intro o ho
        rcases List.mem_cons.1 ho with rfl | ho2
        · exact ⟨len, aE, rfl⟩
        · exact hall o ho2
    | seqBad len aE =>
      simp only [fillLoop] at h
      split_ifs at h <;> simp_all
    | eos aE =>
      simp only [fillLoop] at h
      split_ifs at h with h1 h2
      · simp_all
      · simp only [Prod.mk.injEq] at h
        obtain ⟨hA, -⟩ := h2
        refine ⟨[], ?_, by simp⟩
        simp [hA, h.2.2]
      · simp_all
    | eofIn aE =>
      simp only [fillLoop] at h
      split_ifs at h with h1 h2
      · simp_all
      · simp_all
      · push_neg at h2
        omega
    | fail aE =>
      simp only [fillLoop] at h
      split_ifs at h <;> simp_all

/-- Claim C2: with a known size the loop stops cleanly only at exactly that
many output bytes; on reaching the size it stops, cleanly when the input is
at its end, and otherwise any further data is an error unless it is the EOS
marker at the end of the input; with an unknown size only the EOS marker at
the end of the input terminates cleanly, and an input end before the marker
yields UnexpectedEOF. -/
theorem c2_size_limit_and_eos :
    (∀ (outs : List SeqOutcome) (pos limit : Int) (avail : Nat) (posF : Int)
      (rest : List SeqOutcome), 0 ≤ limit →
      fillLoop pos limit avail outs = (some Err.eof, posF, rest) → posF = limit) ∧
    (∀ (pos : Int) (avail len : Nat) (rest : List SeqOutcome), maxMatchLen ≤ avail →
      fillLoop pos (pos + len) avail (SeqOutcome.seq len true :: rest)
        = (some Err.eof, pos + len, rest)) ∧
    (∀ (pos : Int) (avail len : Nat) (rest2 : List SeqOutcome), maxMatchLen ≤ avail →
      fillLoop pos (pos + len) avail (SeqOutcome.seq len false :: SeqOutcome.eos true :: rest2)
        = (some Err.eof, pos + len, rest2)) ∧
    (∀ (pos : Int) (avail len : Nat) (o : SeqOutcome) (rest2 : List SeqOutcome),
      maxMatchLen ≤ avail → o ≠ SeqOutcome.eos true →
      fillLoop pos (pos + len) avail (SeqOutcome.seq len false :: o :: rest2)
        = (some Err.errEncoding, pos + len, rest2)) ∧
    (∀ (outs : List SeqOutcome) (pos limit : Int) (avail : Nat) (posF : Int)
      (rest : List SeqOutcome), limit < 0 → 0 ≤ pos →
      fillLoop pos limit avail outs = (some Err.eof, posF, rest) →
      ∃ pre, outs = pre ++ SeqOutcome.eos true :: rest ∧
        ∀ o ∈ pre, ∃ l aE, o = SeqOutcome.seq l aE) ∧
    (∀ (pos limit : Int) (avail : Nat) (aE : Bool) (rest : List SeqOutcome),
      limit < 0 → 0 ≤ pos → maxMatchLen ≤ avail →
      fillLoop pos limit avail (SeqOutcome.eofIn aE :: rest)
        = (some Err.unexpectedEOF, pos, rest)) := by
  refine ⟨fillLoop_eof_exact, ?_, ?_, ?_, fillLoop_unknown_eos, ?_⟩
  · intro pos avail len rest hav
    simp only [fillLoop]
    rw [if_neg (by omega)]
    simp
  · intro pos avail len rest2 hav
    simp only [fillLoop]
    rw [if_neg (by omega)]
    simp
  · intro pos avail len o rest2 hav ho
    simp only [fillLoop]
    rw [if_neg (by omega)]
    cases o with
    | eos aE2 =>
      have haE : aE2 = false := by
        cases aE2
        · rfl
        · exact absurd rfl ho
      simp [haE]
    | seq l a => simp
    | seqBad l a => simp
    | eofIn a => simp
    | fail a => simp
  · intro pos limit avail aE rest hl hp hav
    simp only [fillLoop]
    rw [if_neg (by omega)]
    have hc : ¬aE = true ∨ limit ≠ pos := Or.inr (by omega)
    rw [if_pos hc]

/-- Closed witness for `c2_size_limit_and_eos`: with size 5 reached exactly
and the EOS marker at the end of the data, the loop stops cleanly. -/
theorem c2_size_limit_and_eos_witness :
    fillLoop 0 5 300 [SeqOutcome.seq 5 false, SeqOutcome.eos true]
      = (some Err.eof, 5, []) := by
  have h := c2_size_limit_and_eos.2.2.1 0 300 5 [] (by norm_num [maxMatchLen])
  simpa using h

/-- Auxiliary characterization for claim C6: a run that ends as a parallel
task with no error consists of an accumulated chunk prefix followed by a
dict-reset chunk, and its size is the accumulated uncompressed size, within
the worker buffer size. -/
theorem splitStream_parallel_aux (chunks : List ChunkHeader) :
    ∀ (size n m : Nat), n ≤ size →
    splitStream chunks size n = (m, true, none) →
    ∃ pre hdr rest, chunks = pre ++ hdr :: rest ∧
      (hdr.control = ChunkControl.cUD ∨ hdr.control = ChunkControl.cCSPD) ∧
      m = n + (pre.map ChunkHeader.size).sum ∧ 0 < m ∧ m ≤ size := by
  induction chunks with
  | nil =>
    intro size n m hn h
    simp [splitStream] at h
  | cons hdr rest ih =>
    intro size n m hn h
    simp only [splitStream] at h
    split_ifs at h with h1 h2 h3
    · have hm : n = m := by simp_all
      exact ⟨[], hdr, rest, rfl, h1.1, by simp [hm], by omega, by omega⟩
    · simp_all
    · simp_all
    · obtain ⟨pre, hdr', rest', hc, hr, hm, hpos, hle⟩ :=
        ih size (n + hdr.size) m (by omega) h
      refine ⟨hdr :: pre, hdr', rest', by simp [hc], hr, ?_, hpos, hle⟩
      simp only [List.map_cons, List.sum_cons]
      omega

/-- Claim C6, counterexample: with worker buffer size 1000000, a stream
whose first chunk is a full-reset compressed chunk of 100 uncompressed
bytes followed by a dict-reset uncompressed chunk is split into a parallel
task of size 100, although the total uncompressed size has not reached the
buffer size. -/
theorem c6_counterexample :
    splitStream [⟨ChunkControl.cCSPD, 100, 50⟩, ⟨ChunkControl.cUD, 10, 5⟩] 1000000 0
      = (100, true, none) ∧ 100 < 1000000 := by
  refine ⟨by decide, by norm_num⟩

/-- Claim C6 as amended: the splitter ends a run as a parallel task as soon
as at least one chunk has been accumulated and the next chunk begins with a
dict reset, whether or not the total has reached the worker buffer size;
the end-of-stream chunk also ends the run as a parallel task; when
accumulating the next chunk would push the total beyond the buffer size the
splitter returns ok = false and the remainder is decoded serially; a
parallel task always ends at a dict-reset boundary and its size is the
total uncompressed size of its chunks, which is positive and at most the
buffer size. -/
theorem c6_split_stream :
    (∀ (hdr : ChunkHeader) (rest : List ChunkHeader) (size n : Nat),
      (hdr.control = ChunkControl.cUD ∨ hdr.control = ChunkControl.cCSPD) → 0 < n →
      splitStream (hdr :: rest) size n = (n, true, none)) ∧
    (∀ (hdr : ChunkHeader) (rest : List ChunkHeader) (size n : Nat),
      hdr.control ≠ ChunkControl.cEOS →
      ¬((hdr.control = ChunkControl.cUD ∨ hdr.control = ChunkControl.cCSPD) ∧ 0 < n) →
      size < n + hdr.size →
      splitStream (hdr :: rest) size n = (0, false, some Err.eof)) ∧
    (∀ (hdr : ChunkHeader) (rest : List ChunkHeader) (size n : Nat),
      hdr.control = ChunkControl.cEOS →
      ¬((hdr.control = ChunkControl.cUD ∨ hdr.control = ChunkControl.cCSPD) ∧ 0 < n) →
      splitStream (hdr :: rest) size n = (n, true, some Err.eof)) ∧
    (∀ (chunks : List ChunkHeader) (size m : Nat),
      splitStream chunks size 0 = (m, true, none) →
      ∃ pre hdr rest, chunks = pre ++ hdr :: rest ∧
        (hdr.control = ChunkControl.cUD ∨ hdr.control = ChunkControl.cCSPD) ∧
        m = (pre.map ChunkHeader.size).sum ∧ 0 < m ∧ m ≤ size) := by
  refine ⟨?_, ?_, ?_, ?_⟩
  · intro hdr rest size n h1 h2
    simp only [splitStream]
    rw [if_pos ⟨h1, h2⟩]
  · intro hdr rest size n h1 h2 h3
    simp only [splitStream]
    rw [if_neg h2, if_neg h1, if_pos (by omega)]
  · intro hdr rest size n h1 h2
    simp only [splitStream]
    rw [if_neg h2, if_pos h1]
  · intro chunks size m h
    obtain ⟨pre, hdr, rest, hc, hr, hm, hpos, hle⟩ :=
      splitStream_parallel_aux chunks size 0 m (Nat.zero_le _) h
    exact ⟨pre, hdr, rest, hc, hr, by omega, hpos, hle⟩

/-- Closed witness for `c6_split_stream`: a run of accumulated size 7 ends
at a dict-reset boundary. -/
theorem c6_split_stream_witness :
    splitStream [⟨ChunkControl.cUD, 3, 1⟩] 50 7 = (7, true, none) :=
  c6_split_stream.1 ⟨ChunkControl.cUD, 3, 1⟩ [] 50 7 (Or.inl rfl) (by norm_num)

/-! Helper lemmas for claim C9: every error returned by a loop body is
latched in the final state. -/

theorem mtwLoop_err_latched (bufSize maxWorkers : Nat) :
    ∀ (polls : List (Option Err × Option Err)) (st : MtWriterSt) (p : List Nat)
    (n n' : Nat) (e : Err) (stF : MtWriterSt),
    mtwLoop bufSize maxWorkers st p n polls = (n', some e, stF) → stF.err = some e := by
  intro polls
  induction polls with
  | nil =>
    intro st p n n' e stF h
    rcases p with _ | ⟨b, p'⟩
    · simp only [mtwLoop] at h
      cases h
    · simp only [mtwLoop] at h
      split_ifs at h <;> cases h
  | cons pr rest ih =>
    intro st p n n' e stF h
    rcases p with _ | ⟨b, p'⟩
    · simp only [mtwLoop] at h
      cases h
    · obtain ⟨poll1, poll2⟩ := pr
      rcases poll1 with _ | e1
      · rcases poll2 with _ | e2
        · simp only [mtwLoop] at h
          split_ifs at h with h1
          · cases h
          all_goals exact ih _ _ _ _ _ _ h
        · simp only [mtwLoop] at h
          split_ifs at h with h1
          · cases h
          all_goals
            cases h
            rfl
      · simp only [mtwLoop] at h
        split_ifs at h with h1
        · cases h
        all_goals
          cases h
          rfl

theorem mtrLoop_err_latched :
    ∀ (steps : List MtrStep) (hasCur : Bool) (n need n' : Nat) (e : Err)
    (stF : MtReaderSt),
    mtrLoop hasCur n need steps = (n', some e, stF) → stF.err = some e := by
  intro steps
  induction steps with
  | nil =>
    intro hasCur n need n' e stF h
    simp only [mtrLoop] at h
    split_ifs at h <;> cases h
  | cons step rest ih =>
    intro hasCur n need n' e stF h
    by_cases h1 : need ≤ n
    · simp only [mtrLoop, if_pos h1] at h
      cases h
    · cases hasCur with
      | false =>
        cases step with
        | recvClosed =>
          simp only [mtrLoop, if_neg h1, Bool.false_eq_true, if_false] at h
          by_cases h2 : n = 0
          · rw [if_pos h2] at h
            cases h
            rfl
          · rw [if_neg h2] at h
            cases h
        | recvTask =>
          simp only [mtrLoop, if_neg h1, Bool.false_eq_true, if_false] at h
          exact ih _ _ _ _ _ _ h
        | readRes k e0 =>
          simp only [mtrLoop, if_neg h1, Bool.false_eq_true, if_false] at h
          cases h
      | true =>
        cases step with
        | recvClosed =>
          simp only [mtrLoop, if_neg h1, if_true] at h
          cases h
        | recvTask =>
          simp only [mtrLoop, if_neg h1, if_true] at h
          cases h
        | readRes k e0 =>
          simp only [mtrLoop, if_neg h1, if_true] at h
          rcases e0 with _ | e1
          · exact ih _ _ _ _ _ _ h
          · rcases e1 with _ | _ | _ | _ | _ | _ | _ | m <;>
              first
                | exact ih _ _ _ _ _ _ h
                | (cases h; rfl)

theorem l2Loop_err_latched :
    ∀ (its : List L2It) (n need n' : Nat) (e : Err) (latch : Option Err),
    (∀ it ∈ its, it.e ≠ some Err.noData) →
    l2Loop n need its = (n', some e, latch) →
    (fatalL2 e → latch = some e) ∧ (e = Err.noData → latch = none) := by
  intro its
  induction its with
  | nil =>
    intro n need n' e latch hits h
    simp only [l2Loop] at h
    split_ifs at h <;> cases h
  | cons it rest ih =>
    intro n need n' e latch hits h
    have hhd : it.e ≠ some Err.noData := hits it (List.mem_cons_self _ _)
    have htl : ∀ i ∈ rest, i.e ≠ some Err.noData :=
      fun i hi => hits i (List.mem_cons_of_mem _ hi)
    rcases hit : it.e with _ | e1
    · by_cases h1 : need ≤ n
      · simp only [l2Loop, if_pos h1] at h
        cases h
      · by_cases h2 : it.k = 0
        · simp only [l2Loop, if_neg h1, hit, if_pos h2] at h
          cases h
          exact ⟨fun hf => (hf rfl).elim, fun _ => rfl⟩
        · simp only [l2Loop, if_neg h1, hit, if_neg h2] at h
          exact ih _ _ _ _ _ htl h
    · by_cases h1 : need ≤ n
      · simp only [l2Loop, if_pos h1] at h
        cases h
      · simp only [l2Loop, if_neg h1, hit] at h
        cases h
        exact ⟨fun _ => rfl, fun hc => absurd (hit.trans (by rw [hc])) hhd⟩

/-- Claim C9: for the multithreaded LZMA2 writer Write, the multithreaded
reader Read and the chunk-sequence Reader Read, a latched error is returned
as is with the state unchanged, and every fatal error returned by an
operation is latched in the state (for the chunk reader, every error except
the transient no-data guard, which is returned without latching). -/
theorem c9_error_latching :
    (∀ (bufSize maxWorkers : Nat) (st : MtWriterSt) (p : List Nat) (poll0 : Option Err)
      (polls : List (Option Err × Option Err)) (e : Err), st.err = some e →
      mtwWrite bufSize maxWorkers st p poll0 polls = (0, some e, st)) ∧
    (∀ (bufSize maxWorkers : Nat) (st : MtWriterSt) (p : List Nat) (poll0 : Option Err)
      (polls : List (Option Err × Option Err)) (n : Nat) (e : Err) (stF : MtWriterSt),
      mtwWrite bufSize maxWorkers st p poll0 polls = (n, some e, stF) →
      stF.err = some e) ∧
    (∀ (st : MtReaderSt) (need : Nat) (steps : List MtrStep) (e : Err),
      st.err = some e → mtrRead st need steps = (0, some e, st)) ∧
    (∀ (st : MtReaderSt) (need : Nat) (steps : List MtrStep) (n : Nat) (e : Err)
      (stF : MtReaderSt),
      mtrRead st need steps = (n, some e, stF) → stF.err = some e) ∧
    (∀ (latched : Option Err) (need : Nat) (its : List L2It) (e : Err),
      latched = some e → l2Read latched need its = (0, some e, latched)) ∧
    (∀ (need : Nat) (its : List L2It) (n : Nat) (e : Err) (latch : Option Err),
      (∀ it ∈ its, it.e ≠ some Err.noData) →
      l2Read none need its = (n, some e, latch) →
      (fatalL2 e → latch = some e) ∧ (e = Err.noData → latch = none)) := by
  refine ⟨?_, ?_, ?_, ?_, ?_, ?_⟩
  · intro bufSize maxWorkers st p poll0 polls e h
    simp [mtwWrite, h]
  · intro bufSize maxWorkers st p poll0 polls n e stF h
    rcases hst : st.err with _ | e0
    · rcases hp0 : poll0 with _ | e1
      · simp only [mtwWrite, hst, hp0] at h
        exact mtwLoop_err_latched _ _ _ _ _ _ _ _ _ h
      · simp only [mtwWrite, hst, hp0, Prod.mk.injEq] at h
        rw [← h.2.2]
        simp only [Option.some.injEq] at h
        rw [h.2.1]
    · simp only [mtwWrite, hst, Prod.mk.injEq] at h
      rw [← h.2.2, hst]
      simp only [Option.some.injEq] at h
      rw [h.2.1]
  · intro st need steps e h
    simp [mtrRead, h]
  · intro st need steps n e stF h
    rcases hst : st.err with _ | e0
    · simp only [mtrRead, hst] at h
      exact mtrLoop_err_latched _ _ _ _ _ _ _ h
    · simp only [mtrRead, hst, Prod.mk.injEq] at h
      rw [← h.2.2, hst]
      simp only [Option.some.injEq] at h
      rw [h.2.1]
  · intro latched need its e h
    simp [l2Read, h]
  · intro need its n e latch hits h
    simp only [l2Read] at h
    exact l2Loop_err_latched its _ _ _ _ _ hits h

/-- Closed witness for `c9_error_latching`: a reader with a latched Closed
error returns it unchanged. -/
theorem c9_error_latching_witness :
    mtrRead ⟨some Err.closed, false⟩ 3 [] = (0, some Err.closed, ⟨some Err.closed, false⟩) :=
  c9_error_latching.2.2.1 ⟨some Err.closed, false⟩ 3 [] Err.closed rfl

/-- Claim C10: `reader.Read` delivers the decoded-but-undelivered bytes in
order and loses none of them: the delivered bytes followed by the remaining
dictionary content are exactly the initial dictionary content followed by
everything the consumed fill calls produced; a call that returns no error
has filled the whole buffer; and an error is surfaced only with the
dictionary empty. -/
theorem c10_read_drains_before_error :
    ∀ (steps : List FillRes) (dict : List Nat) (need : Nat),
    ∃ consumed,
      steps = consumed ++ (lzma1Read dict steps need).2.2.2 ∧
      (lzma1Read dict steps need).1 ++ (lzma1Read dict steps need).2.2.1
        = dict ++ (consumed.map FillRes.produced).join ∧
      ((lzma1Read dict steps need).2.1 = none →
        (lzma1Read dict steps need).1.length = need) ∧
      (∀ e, (lzma1Read dict steps need).2.1 = some e → e ≠ Err.oracleEnd →
        (lzma1Read dict steps need).2.2.1 = []) := by
  intro steps
  induction steps with
  | nil =>
    intro dict need
    refine ⟨[], ?_⟩
    simp only [lzma1Read]
    split_ifs with h0
    · refine ⟨by simp, by simp, ?_, ?_⟩
      · intro _
        simp only [List.length_take]
        omega
      · intro e he
        cases he
    · refine ⟨by simp, by simp, ?_, ?_⟩
      · intro hc
        cases hc
      · intro e he he2
        exact absurd (Option.some.inj he).symm he2
  | cons s rest ih =>
    intro dict need
    by_cases h0 : need - min need dict.length = 0
    · refine ⟨[], ?_⟩
      cases s with
      | ok produced =>
        simp only [lzma1Read, if_pos h0]
        exact ⟨by simp, by simp,
          fun _ => by simp only [List.length_take]; omega,
          fun e he => by cases he⟩
      | fail produced e0 =>
        simp only [lzma1Read, if_pos h0]
        exact ⟨by simp, by simp,
          fun _ => by simp only [List.length_take]; omega,
          fun e he => by cases he⟩
    · cases s with
      | ok produced =>
        obtain ⟨consumed, hc, hjoin, hnone, herr⟩ :=
          ih (dict.drop (min need dict.length) ++ produced) (need - min need dict.length)
        refine ⟨FillRes.ok produced :: consumed, ?_⟩
        simp only [lzma1Read, if_neg h0]
        refine ⟨by simpa using hc, ?_, ?_, ?_⟩
        · rw [List.append_assoc, hjoin, ← List.append_assoc, ← List.append_assoc,
            List.take_append_drop]
          simp [FillRes.produced, List.append_assoc]
        · intro hn
          have hlen := hnone hn
          simp only [List.length_append, List.length_take, hlen]
          omega
        · exact herr
      | fail produced e0 =>
        by_cases hlen : (dict.drop (min need dict.length) ++ produced).length > 0
        · obtain ⟨consumed, hc, hjoin, hnone, herr⟩ :=
            ih (dict.drop (min need dict.length) ++ produced) (need - min need dict.length)
          refine ⟨FillRes.fail produced e0 :: consumed, ?_⟩
          simp only [lzma1Read, if_neg h0, if_pos hlen]
          refine ⟨by simpa using hc, ?_, ?_, ?_⟩
          · rw [List.append_assoc, hjoin, ← List.append_assoc, ← List.append_assoc,
              List.take_append_drop]
            simp [FillRes.produced, List.append_assoc]
          · intro hn
            have hlen2 := hnone hn
            simp only [List.length_append, List.length_take, hlen2]
            omega
          · exact herr
        · refine ⟨[FillRes.fail produced e0], ?_⟩
          simp only [lzma1Read, if_neg h0, if_neg hlen]
          have hdp : dict.drop (min need dict.length) = [] ∧ produced = [] := by
            simpa using hlen
          obtain ⟨hd1, hd2⟩ := hdp
          refine ⟨by simp, ?_, ?_, ?_⟩
          · have hdict : dict.take (min need dict.length) = dict := by
              conv_rhs => rw [← List.take_append_drop (min need dict.length) dict]
              rw [hd1, List.append_nil]
            simp [FillRes.produced, hd1, hd2, hdict]
          · intro hc
            cases hc
          · intro e he he2
            exact hd1

/-- Closed witness for `c5_props_byte`: byte 100 decodes to LC 1, LP 1,
PB 2, whose encoding is 100 again. -/
theorem c5_props_byte_witness :
    Properties.toByte ⟨1, 1, 2⟩ = 100 :=
  ((c5_props_byte 100).2 ⟨1, 1, 2⟩ (by decide)).1

/-- Closed witness for `c10_read_drains_before_error`: a Read whose only
fill call fails leaves the dictionary empty when the error is returned. -/
theorem c10_read_drains_before_error_witness :
    (lzma1Read [1, 2] [FillRes.fail [] Err.unexpectedEOF] 5).2.2.1 = [] := by
  obtain ⟨consumed, h1, h2, h3, h4⟩ :=
    c10_read_drains_before_error [FillRes.fail [] Err.unexpectedEOF] [1, 2] 5
  exact h4 Err.unexpectedEOF (by decide) (by decide)

end XzSpec